import Mathlib

/-!
Verification of the German orthography-restoration core of this repository.

The orchestrator, candidate search and validity-oracle dispatch are embedded
from `src/core/src/stages/german/driver.rs`.  The collaborators that the
driver imports from sibling modules that are not part of the sources here
(the segmenter's state machine, the word/replacement model, the casing
classifier and titlecase utility, compound-word decomposition, the power-set
enumerator and the uneven binary search) are modelled from the specification;
each such definition carries a doc comment saying so.

Strings are embedded as `List Char`; the dictionary predicate is passed as an
explicit function argument, since the dictionary blob is an external build
artifact injected into the driver.
-/

namespace Srgn

/-- Modelled from the spec: the recognized letter alphabet of the casing
classifier (a letter of any case, including umlauts and sharp-s).  Each entry
pairs a lowercase letter with its uppercase counterpart; the case maps are
bijective on this table, with the capital sharp-s as the counterpart of ß. -/
def casePairs : List (Char × Char) :=
  [('a', 'A'), ('b', 'B'), ('c', 'C'), ('d', 'D'), ('e', 'E'), ('f', 'F'),
   ('g', 'G'), ('h', 'H'), ('i', 'I'), ('j', 'J'), ('k', 'K'), ('l', 'L'),
   ('m', 'M'), ('n', 'N'), ('o', 'O'), ('p', 'P'), ('q', 'Q'), ('r', 'R'),
   ('s', 'S'), ('t', 'T'), ('u', 'U'), ('v', 'V'), ('w', 'W'), ('x', 'X'),
   ('y', 'Y'), ('z', 'Z'), ('ä', 'Ä'), ('ö', 'Ö'), ('ü', 'Ü'), ('ß', 'ẞ')]

/-- A character is a lowercase letter of the recognized alphabet. -/
def isLowerLetter (c : Char) : Bool := casePairs.any (fun p => p.1 == c)

/-- A character is an uppercase letter of the recognized alphabet. -/
def isUpperLetter (c : Char) : Bool := casePairs.any (fun p => p.2 == c)

/-- A character is a letter of the recognized alphabet. -/
def isLetter (c : Char) : Bool := isLowerLetter c || isUpperLetter c

/-- Uppercase a single character (identity outside the alphabet). -/
def toUpperChar (c : Char) : Char :=
  match casePairs.find? (fun p => p.1 == c) with
  | some p => p.2
  | none => c

/-- Lowercase a single character (identity outside the alphabet). -/
def toLowerChar (c : Char) : Char :=
  match casePairs.find? (fun p => p.2 == c) with
  | some p => p.1
  | none => c

/-- Modelled from the spec: titlecasing, first letter uppercase and the
remainder lowercase, independent of the source casing. -/
def titlecase : List Char → List Char
  | [] => []
  | c :: rest => toUpperChar c :: rest.map toLowerChar

/-- Lowercase an entire word (the `to_lowercase` call of the driver). -/
def toLowerStr (w : List Char) : List Char := w.map toLowerChar

/-- Modelled from the spec: the casing classification of a word, exactly one
of the four classes, or none when the word is empty or contains a character
outside the recognized letter alphabet. -/
inductive WordCasing
  | allLowercase
  | allUppercase
  | mixed
  | titlecase
deriving DecidableEq

/-- Modelled from the spec: derive the casing class purely from the letters'
case properties.  A single uppercase letter counts as titlecase (first letter
uppercase, empty remainder lowercase); this priority is forced by the spec's
defensive invariant that a titlecased word must classify as Titlecase. -/
def WordCasing.try_from (w : List Char) : Option WordCasing :=
  match w with
  | [] => none
  | c :: rest =>
    if (c :: rest).all isLetter then
      if isUpperLetter c && rest.all isLowerLetter then some .titlecase
      else if (c :: rest).all isLowerLetter then some .allLowercase
      else if (c :: rest).all isUpperLetter then some .allUppercase
      else some .mixed
    else none

/-! The validity oracle.  `is_valid` is embedded from the driver
(`driver.rs`, `fn is_valid`); its recursion is expressed with an explicit
fuel parameter whose exact value is computed from the argument, so that the
definition is structural and executable.  `is_compound_word` is modelled from
the spec (section 4.5): a word decomposes iff it splits at some point into a
non-empty proper prefix that the oracle accepts verbatim (titlecase or
lowercase) and a non-empty remainder that the oracle accepts after
titlecasing, the remainder case covering nested compounds.  The memoization
cache of the driver is observably transparent and is not modelled. -/
mutual

def is_validF (pred : List Char → Bool) : Nat → List Char → Bool
  | 0, _ => false
  | n+1, w =>
    match WordCasing.try_from w with
    | some WordCasing.allLowercase => pred w
    | some WordCasing.allUppercase => is_validF pred n (titlecase w)
    | some WordCasing.mixed => is_validF pred n (titlecase w)
    | some WordCasing.titlecase =>
        pred w || is_validF pred n (toLowerStr w) || is_compoundF pred n w
    | none => false

def is_compoundF (pred : List Char → Bool) : Nat → List Char → Bool
  | 0, _ => false
  | n+1, w =>
    (List.range' 1 (w.length - 1)).any fun i =>
      is_validF pred n (w.take i) && is_validF pred n (titlecase (w.drop i))

end

/-- Fuel that exactly suffices for the oracle's recursion on `w`: three units
per character, plus the number of same-length normalization steps the casing
class still allows, plus one for the present call. -/
def fuelNeed (w : List Char) : Nat :=
  3 * w.length +
    (match WordCasing.try_from w with
     | some WordCasing.allUppercase => 2
     | some WordCasing.mixed => 2
     | some WordCasing.titlecase => 1
     | _ => 0) + 1

/-- The validity oracle of the driver. -/
def is_valid (pred : List Char → Bool) (w : List Char) : Bool :=
  is_validF pred (fuelNeed w) w

/-- Modelled from the spec: compound-word decomposition (section 4.5). -/
def is_compound_word (pred : List Char → Bool) (w : List Char) : Bool :=
  is_compoundF pred (3 * w.length + 1) w

/-! The word model and the segmenter's state machine, modelled from the spec
(sections 3 and 4.1; the crate's `machine.rs` and `words.rs` are not among
the sources). -/
/-- Modelled from the spec: a replacement opportunity, a span given by start
and end offsets into the word's content plus the native character the span
may become.  `stop` stands for the exclusive end offset. -/
structure Replacement where
  start : Nat
  stop : Nat
  native : Char
deriving DecidableEq

/-- Modelled from the spec: the word being accumulated by the machine, its
original content plus the ordered list of replacement opportunities. -/
structure WordAcc where
  content : List Char
  replacements : List Replacement
deriving DecidableEq

/-- Modelled from the spec: the fixed digraph table (ae/oe/ue/ss to ä/ö/ü/ß)
with case variants; the capital sharp-s stands in for the uppercase ß. -/
def digraphTable : List (Char × Char × Char) :=
  [('a', 'e', 'ä'), ('o', 'e', 'ö'), ('u', 'e', 'ü'), ('s', 's', 'ß'),
   ('A', 'e', 'Ä'), ('O', 'e', 'Ö'), ('U', 'e', 'Ü'),
   ('A', 'E', 'Ä'), ('O', 'E', 'Ö'), ('U', 'E', 'Ü'), ('S', 'S', 'ẞ')]

/-- Native character for a two-character suffix, when it is a digraph. -/
def digraphNative (a b : Char) : Option Char :=
  (digraphTable.find? (fun t => t.1 == a && t.2.1 == b)).map (fun t => t.2.2)

/-- Modelled from the spec: word-constituent characters are the letters of
the recognized alphabet. -/
def isWordChar (c : Char) : Bool := isLetter c

/-- Open a fresh word seeded with its first character. -/
def newWord (c : Char) : WordAcc := ⟨[c], []⟩

/-- Append one character to the current word; when the updated two-character
suffix matches the digraph table, register a replacement over that suffix. -/
def pushChar (acc : WordAcc) (c : Char) : WordAcc :=
  let content := acc.content ++ [c]
  let reps :=
    match acc.content.getLast? with
    | some p =>
      match digraphNative p c with
      | some nc =>
          acc.replacements ++ [⟨content.length - 2, content.length, nc⟩]
      | none => acc.replacements
    | none => acc.replacements
  ⟨content, reps⟩

/-- The replacement opportunities the machine records while scanning a word. -/
def register_replacements : List Char → List Replacement
  | [] => []
  | c :: cs => (List.foldl pushChar (newWord c) cs).replacements

/-- Modelled from the spec: apply a chosen subset of replacements to the
original content, in ascending span order. -/
def applyFrom (content : List Char) : Nat → List Replacement → List Char
  | pos, [] => content.drop pos
  | pos, r :: rest =>
      (content.drop pos).take (r.start - pos) ++
        r.native :: applyFrom content r.stop rest

/-- Modelled from the spec: `apply_replacements` of the word model. -/
def apply_replacements (content : List Char) (rs : List Replacement) :
    List Char :=
  applyFrom content 0 rs

/-- The elements of `l` selected by the set bits of the mask `m`, bit zero
selecting the first element. -/
def maskSubset {α : Type} : Nat → List α → List α
  | _, [] => []
  | m, x :: xs => (if m % 2 = 1 then [x] else []) ++ maskSubset (m / 2) xs

/-- Modelled from the spec: enumerate all non-empty subsets of the
opportunities in a fixed deterministic order, by ascending bitmask over the
opportunities in left-to-right positional order. -/
def power_set_without_empty {α : Type} (l : List α) : List (List α) :=
  (List.range' 1 (2 ^ l.length - 1)).map (fun m => maskSubset m l)

/-! The driver (`driver.rs`, in the sources): candidate search and the
substitution loop. -/
/-- The loop body of `find_valid_replacement`: try each combination in
order, returning the first oracle-valid candidate. -/
def fvrLoop (pred : List Char → Bool) (word : List Char) :
    List (List Replacement) → Option (List Char)
  | [] => none
  | rs :: rest =>
    let candidate := apply_replacements word rs
    if is_valid pred candidate then some candidate else fvrLoop pred word rest

/-- Embedded from the driver: search the power set of the replacement
opportunities (without the empty set) for the first valid candidate. -/
def find_valid_replacement (pred : List Char → Bool) (word : List Char)
    (replacements : List Replacement) : Option (List Char) :=
  fvrLoop pred word (power_set_without_empty replacements)

/-- The transitions reported by the segmenter's state machine; `Exited`
carries the word that just closed and became readable. -/
inductive Transition
  | External
  | Entered
  | Internal
  | Exited (closed : WordAcc)

/-- Modelled from the spec: the two-state segmenter machine.  The state is
the current word when inside a word, `none` otherwise. -/
def machineTransition : Option WordAcc → Char → Option WordAcc × Transition
  | none, c =>
    if isWordChar c then (some (newWord c), Transition.Entered)
    else (none, Transition.External)
  | some acc, c =>
    if isWordChar c then (some (pushChar acc c), Transition.Internal)
    else (none, Transition.Exited acc)

/-- The text the driver appends for a word that just closed: the first valid
replacement, or the unmodified original content. -/
def substWordAcc (pred : List Char → Bool) (acc : WordAcc) : List Char :=
  (find_valid_replacement pred acc.content acc.replacements).getD acc.content

/-- One iteration of the driver's character loop, pairing the output built
so far with the machine state. -/
def driverStep (pred : List Char → Bool) (p : List Char × Option WordAcc)
    (c : Char) : List Char × Option WordAcc :=
  match machineTransition p.2 c with
  | (st, Transition.External) => (p.1 ++ [c], st)
  | (st, Transition.Entered) => (p.1, st)
  | (st, Transition.Internal) => (p.1, st)
  | (st, Transition.Exited acc) => (p.1 ++ substWordAcc pred acc ++ [c], st)

/-- The synthetic trailing non-word sentinel of the driver. -/
def INDICATOR : Char := '\x00'

/-- Embedded from the driver's `substitute`: run the machine over the input
extended with the sentinel, then pop the echoed sentinel. -/
def substitute (pred : List Char → Bool) (input : List Char) : List Char :=
  (List.foldl (driverStep pred) ([], none) (input ++ [INDICATOR])).1.dropLast

/-- The pipeline's uniform error wrapper; the German stage never uses it. -/
inductive StageError
  | message (msg : List Char)

/-- The stage entry point: the driver builds the output and returns it as a
success, with no failing path. -/
def substituteStage (pred : List Char → Bool) (input : List Char) :
    Except StageError (List Char) :=
  Except.ok (substitute pred input)

/-- Concrete dictionary predicate and opportunity used to instantiate the
candidate-search theorem. -/
def predC1 : List Char → Bool := fun w => w == ['ä']

def repC1 : Replacement := ⟨0, 2, 'ä'⟩

/-! Shape of one driver iteration, and accumulation lemmas for the loop. -/
/-- The characters one driver iteration appends to the output. -/
def stepOut (pred : List Char → Bool) (st : Option WordAcc) (c : Char) :
    List Char :=
  match st with
  | none => if isWordChar c then [] else [c]
  | some acc => if isWordChar c then [] else substWordAcc pred acc ++ [c]

/-- The machine state after one driver iteration. -/
def stepState (st : Option WordAcc) (c : Char) : Option WordAcc :=
  match st with
  | none => if isWordChar c then some (newWord c) else none
  | some acc => if isWordChar c then some (pushChar acc c) else none

/-- Invariant of the machine's accumulated word: all content characters and
all registered native characters are word-constituent. -/
def accOk (acc : WordAcc) : Prop :=
  (∀ c ∈ acc.content, isWordChar c = true) ∧
    (∀ r ∈ acc.replacements, isWordChar r.native = true)

/-- Invariant carried by the driver loop over the optional current word. -/
def stOk (st : Option WordAcc) : Prop :=
  match st with
  | none => True
  | some acc => accOk acc

/-- Everywhere-false dictionary predicate, for witnesses. -/
def predFalse : List Char → Bool := fun _ => false

/-- Small fixture dictionary containing both a partially replaced and a
fully replaced form of the same word. -/
def predD : List Char → Bool := fun w =>
  w == ['n', 'a', 's', 's'] || w == ['s', 'ü', 's', 's'] ||
    w == ['s', 'ü', 'ß']

/-- Fixture dictionary without the fully replaced form, so the changed word
admits no further candidate. -/
def predD1 : List Char → Bool := fun w =>
  w == ['n', 'a', 's', 's'] || w == ['s', 'ü', 's', 's']

/-- Fixture dictionary accepting exactly the word "Ab". -/
def predAb : List Char → Bool := fun s => s == ['A', 'b']

/-! Dictionary lookup, modelled from the spec (section 4.4): binary search
for an exact line match directly over the separator-delimited sorted text,
probing a midpoint offset, expanding to the enclosing line boundaries,
comparing that line with the target and narrowing by line-boundary offsets.
The dictionary text is modelled as each word followed by one separator. -/
/-- Three-way lexicographic comparison of character lists, by scalar value —
the order byte-wise comparison of UTF-8 strings induces. -/
def cmpChars : List Char → List Char → Ordering
  | [], [] => Ordering.eq
  | [], _ :: _ => Ordering.lt
  | _ :: _, [] => Ordering.gt
  | a :: as, b :: bs =>
    if a.toNat < b.toNat then Ordering.lt
    else if b.toNat < a.toNat then Ordering.gt
    else cmpChars as bs

/-- Strict lexicographic order on character lists. -/
def ltC (a b : List Char) : Prop := cmpChars a b = Ordering.lt

instance : DecidablePred (fun p : List Char × List Char => ltC p.1 p.2) :=
  fun _ => by unfold ltC; infer_instance

instance decidableLtC (a b : List Char) : Decidable (ltC a b) := by
  unfold ltC; infer_instance

/-- Offset of the first character of the line enclosing offset `mid`. -/
def lineStartFrom (hay : List Char) (sep : Char) (mid : Nat) : Nat :=
  mid - (hay.take mid).reverse.findIdx (fun c => c == sep)

/-- Offset just past the last character of the line enclosing `mid`. -/
def lineEndFrom (hay : List Char) (sep : Char) (mid : Nat) : Nat :=
  mid + (hay.drop mid).findIdx (fun c => c == sep)

/-- The loop of the binary search over uneven lines, with fuel. -/
def bsuGo (needle hay : List Char) (sep : Char) : Nat → Nat → Nat → Bool
  | 0, _, _ => false
  | fuel + 1, lo, hi =>
    if lo < hi then
      let mid := lo + (hi - lo) / 2
      let s := lineStartFrom hay sep mid
      let e := lineEndFrom hay sep mid
      match cmpChars needle ((hay.drop s).take (e - s)) with
      | Ordering.lt => bsuGo needle hay sep fuel lo s
      | Ordering.eq => true
      | Ordering.gt => bsuGo needle hay sep fuel (e + 1) hi
    else false

/-- Modelled from the spec: `binary_search_uneven` of the iteration
utilities.  Each iteration strictly narrows the range, so fuel of one more
than the text length always suffices. -/
def binary_search_uneven (needle hay : List Char) (sep : Char) : Bool :=
  bsuGo needle hay sep (hay.length + 1) 0 hay.length

/-- The dictionary text built from its lines, one separator after each. -/
def joinSep (sep : Char) (lines : List (List Char)) : List Char :=
  (lines.map (fun l => l ++ [sep])).flatten

/-- Byte offset at which line `k` starts in the joined text. -/
def startPos : List (List Char) → Nat → Nat
  | _, 0 => 0
  | [], _ + 1 => 0
  | l :: ls, k + 1 => l.length + 1 + startPos ls k

/-- The `k`-th line. -/
def lineAt (lines : List (List Char)) (k : Nat) : List Char := lines.getD k []

/-- Byte offset just past line `k` (its separator sits at this offset). -/
def endPos (lines : List (List Char)) (k : Nat) : Nat :=
  startPos lines k + (lineAt lines k).length

/-- The fixture dictionary for the lookup witness. -/
def dictW : List (List Char) := [['a', 'b'], ['b'], ['c', 'a']]

/-! Character-level facts about the case table.  Universal statements over
`Char` are reduced to decidable facts quantified over the finite table. -/
theorem table_upper : ∀ p ∈ casePairs, isUpperLetter (toUpperChar p.1) = true := by
  decide

theorem table_lower : ∀ p ∈ casePairs, isLowerLetter (toLowerChar p.2) = true := by
  decide

theorem table_cross : ∀ p ∈ casePairs, ∀ q ∈ casePairs, (p.1 == q.2) = false := by
  decide

theorem lower_mem {c : Char} (h : isLowerLetter c = true) :
    ∃ p ∈ casePairs, p.1 = c := by
  simp only [isLowerLetter, List.any_eq_true, beq_iff_eq] at h
  exact h

theorem upper_mem {c : Char} (h : isUpperLetter c = true) :
    ∃ p ∈ casePairs, p.2 = c := by
  simp only [isUpperLetter, List.any_eq_true, beq_iff_eq] at h
  exact h

theorem isLower_toUpper {c : Char} (h : isLowerLetter c = true) :
    isUpperLetter (toUpperChar c) = true := by
  obtain ⟨p, hp, hpc⟩ := lower_mem h
  rw [← hpc]
  exact table_upper p hp

theorem isUpper_toLower {c : Char} (h : isUpperLetter c = true) :
    isLowerLetter (toLowerChar c) = true := by
  obtain ⟨p, hp, hpc⟩ := upper_mem h
  rw [← hpc]
  exact table_lower p hp

theorem not_upper_of_lower {c : Char} (h : isLowerLetter c = true) :
    isUpperLetter c = false := by
  obtain ⟨p, hp, hpc⟩ := lower_mem h
  cases hu : isUpperLetter c
  · rfl
  · obtain ⟨q, hq, hqc⟩ := upper_mem hu
    have := table_cross p hp q hq
    rw [hpc, hqc] at this
    simp at this

theorem not_lower_of_upper {c : Char} (h : isUpperLetter c = true) :
    isLowerLetter c = false := by
  cases hl : isLowerLetter c
  · rfl
  · have := not_upper_of_lower hl
    rw [h] at this
    exact absurd this (by simp)

theorem toLower_of_lower {c : Char} (h : isLowerLetter c = true) :
    toLowerChar c = c := by
  have hfalse : isUpperLetter c = false := not_upper_of_lower h
  have hnone : casePairs.find? (fun p : Char × Char => p.2 == c) = none := by
    apply List.find?_eq_none.mpr
    intro q hq hqc
    have hqc2 : q.2 = c := by simpa using hqc
    have : isUpperLetter c = true := by
      simp only [isUpperLetter, List.any_eq_true, beq_iff_eq]
      exact ⟨q, hq, hqc2⟩
    rw [hfalse] at this
    exact absurd this (by simp)
  simp [toLowerChar, hnone]

theorem toUpper_of_upper {c : Char} (h : isUpperLetter c = true) :
    toUpperChar c = c := by
  have hfalse : isLowerLetter c = false := not_lower_of_upper h
  have hnone : casePairs.find? (fun p : Char × Char => p.1 == c) = none := by
    apply List.find?_eq_none.mpr
    intro q hq hqc
    have hqc1 : q.1 = c := by simpa using hqc
    have : isLowerLetter c = true := by
      simp only [isLowerLetter, List.any_eq_true, beq_iff_eq]
      exact ⟨q, hq, hqc1⟩
    rw [hfalse] at this
    exact absurd this (by simp)
  simp [toUpperChar, hnone]

theorem toLower_letter {c : Char} (h : isLetter c = true) :
    isLowerLetter (toLowerChar c) = true := by
  rcases Bool.or_eq_true_iff.mp (by simpa [isLetter] using h) with hl | hu
  · rw [toLower_of_lower hl]; exact hl
  · exact isUpper_toLower hu

theorem toUpper_letter {c : Char} (h : isLetter c = true) :
    isUpperLetter (toUpperChar c) = true := by
  rcases Bool.or_eq_true_iff.mp (by simpa [isLetter] using h) with hl | hu
  · exact isLower_toUpper hl
  · rw [toUpper_of_upper hu]; exact hu

/-! Word-level classification facts. -/
theorem map_id_of_mem {α : Type} (f : α → α) :
    ∀ (l : List α), (∀ x ∈ l, f x = x) → l.map f = l := by
  intro l h
  induction l with
  | nil => rfl
  | cons y ys ih =>
    simp only [List.map_cons]
    rw [h y (by simp), ih (fun x hx => h x (by simp [hx]))]

theorem titlecase_length (w : List Char) : (titlecase w).length = w.length := by
  cases w <;> simp [titlecase]

theorem toLowerStr_length (w : List Char) : (toLowerStr w).length = w.length := by
  simp [toLowerStr]

theorem try_from_some {w : List Char} {x : WordCasing}
    (h : WordCasing.try_from w = some x) : w ≠ [] ∧ w.all isLetter = true := by
  cases w with
  | nil => simp [WordCasing.try_from] at h
  | cons c rest =>
    refine ⟨by simp, ?_⟩
    cases hall : (c :: rest).all isLetter
    · rw [WordCasing.try_from, hall] at h
      simp at h
    · rfl

/-- Defensive invariant of the driver: a titlecased classifiable word
classifies as Titlecase. -/
theorem try_from_titlecase {w : List Char} (hne : w ≠ [])
    (hall : w.all isLetter = true) :
    WordCasing.try_from (titlecase w) = some WordCasing.titlecase := by
  cases w with
  | nil => exact absurd rfl hne
  | cons c rest =>
    simp only [List.all_cons, Bool.and_eq_true] at hall
    have hcU : isUpperLetter (toUpperChar c) = true := toUpper_letter hall.1
    have hrest : ∀ x ∈ rest, isLowerLetter (toLowerChar x) = true := by
      intro x hx
      exact toLower_letter (List.all_eq_true.mp hall.2 x hx)
    have hletters : (titlecase (c :: rest)).all isLetter = true := by
      simp only [titlecase, List.all_cons, Bool.and_eq_true]
      constructor
      · simp [isLetter, hcU]
      · apply List.all_eq_true.mpr
        intro x hx
        obtain ⟨y, hy, rfl⟩ := List.mem_map.mp hx
        simp [isLetter, hrest y hy]
    have hlower : (rest.map toLowerChar).all isLowerLetter = true := by
      apply List.all_eq_true.mpr
      intro x hx
      obtain ⟨y, hy, rfl⟩ := List.mem_map.mp hx
      exact hrest y hy
    simp only [titlecase] at hletters ⊢
    rw [WordCasing.try_from, hletters]
    simp [hcU, hlower]

theorem try_from_titlecase_elim {c : Char} {rest : List Char}
    (h : WordCasing.try_from (c :: rest) = some WordCasing.titlecase) :
    isUpperLetter c = true ∧ rest.all isLowerLetter = true ∧
      (c :: rest).all isLetter = true := by
  cases hall : (c :: rest).all isLetter
  · rw [WordCasing.try_from, hall] at h
    simp at h
  · rw [WordCasing.try_from, hall] at h
    simp only [if_true] at h
    cases hfirst : (isUpperLetter c && rest.all isLowerLetter)
    · rw [hfirst] at h
      simp only [Bool.false_eq_true, if_false] at h
      split at h <;> simp_all
      split at h <;> simp_all
    · have h12 : isUpperLetter c = true ∧ rest.all isLowerLetter = true := by
        simpa using hfirst
      exact ⟨h12.1, h12.2, rfl⟩

/-- Lowercasing a Titlecase word yields an AllLowercase word. -/
theorem try_from_toLower {w : List Char}
    (h : WordCasing.try_from w = some WordCasing.titlecase) :
    WordCasing.try_from (toLowerStr w) = some WordCasing.allLowercase := by
  cases w with
  | nil => simp [WordCasing.try_from] at h
  | cons c rest =>
    obtain ⟨hcU, hrestL, hall⟩ := try_from_titlecase_elim h
    simp only [List.all_cons, Bool.and_eq_true] at hall
    have hcL : isLowerLetter (toLowerChar c) = true := isUpper_toLower hcU
    have hrest : ∀ x ∈ rest, toLowerChar x = x := by
      intro x hx
      exact toLower_of_lower (List.all_eq_true.mp hrestL x hx)
    have hmap : rest.map toLowerChar = rest := map_id_of_mem toLowerChar rest hrest
    have hstep : toLowerStr (c :: rest) = toLowerChar c :: rest := by
      simp only [toLowerStr, List.map_cons, hmap]
    rw [hstep]
    have hletters : (toLowerChar c :: rest).all isLetter = true := by
      simp only [List.all_cons, Bool.and_eq_true]
      refine ⟨by simp [isLetter, hcL], hall.2⟩
    have hnotU : isUpperLetter (toLowerChar c) = false := not_upper_of_lower hcL
    have hlowerAll : (toLowerChar c :: rest).all isLowerLetter = true := by
      simp only [List.all_cons, Bool.and_eq_true]
      exact ⟨hcL, hrestL⟩
    rw [WordCasing.try_from, hletters]
    simp [hnotU, hlowerAll]

/-! Equations satisfied by `is_valid`, one per branch of the driver's match
on the casing classification. -/
theorem is_valid_lower {pred : List Char → Bool} {w : List Char}
    (h : WordCasing.try_from w = some WordCasing.allLowercase) :
    is_valid pred w = pred w := by
  have hf : fuelNeed w = 3 * w.length + 0 + 1 := by
    simp [fuelNeed, h]
  rw [is_valid, hf, is_validF, h]

theorem is_valid_none {pred : List Char → Bool} {w : List Char}
    (h : WordCasing.try_from w = none) :
    is_valid pred w = false := by
  have hf : fuelNeed w = 3 * w.length + 0 + 1 := by
    simp [fuelNeed, h]
  rw [is_valid, hf, is_validF, h]

theorem is_valid_upper_mixed {pred : List Char → Bool} {w : List Char}
    (h : WordCasing.try_from w = some WordCasing.allUppercase ∨
         WordCasing.try_from w = some WordCasing.mixed) :
    is_valid pred w = is_valid pred (titlecase w) := by
  have hsome : ∃ x, WordCasing.try_from w = some x := by
    rcases h with h | h <;> exact ⟨_, h⟩
  obtain ⟨x, hx⟩ := hsome
  obtain ⟨hne, hall⟩ := try_from_some hx
  have htc : WordCasing.try_from (titlecase w) = some WordCasing.titlecase :=
    try_from_titlecase hne hall
  have htfuel : fuelNeed (titlecase w) = 3 * w.length + 2 := by
    simp [fuelNeed, htc, titlecase_length]
  have hf : fuelNeed w = 3 * w.length + 2 + 1 := by
    rcases h with h | h <;> simp [fuelNeed, h]
  rcases h with h | h <;>
    · rw [is_valid, hf, is_validF, h, is_valid, htfuel]

theorem is_valid_titlecase {pred : List Char → Bool} {w : List Char}
    (h : WordCasing.try_from w = some WordCasing.titlecase) :
    is_valid pred w =
      (pred w || is_valid pred (toLowerStr w) || is_compound_word pred w) := by
  have hlow : WordCasing.try_from (toLowerStr w) = some WordCasing.allLowercase :=
    try_from_toLower h
  have hlfuel : fuelNeed (toLowerStr w) = 3 * w.length + 1 := by
    simp [fuelNeed, hlow, toLowerStr_length]
  have hf : fuelNeed w = 3 * w.length + 1 + 1 := by
    simp [fuelNeed, h]
  rw [is_valid, hf, is_validF, h, is_valid, hlfuel, is_compound_word]

theorem any_congr {α : Type} {l : List α} {f g : α → Bool}
    (h : ∀ x ∈ l, f x = g x) : l.any f = l.any g := by
  induction l with
  | nil => rfl
  | cons y ys ih =>
    simp only [List.any_cons]
    rw [h y (by simp), ih (fun x hx => h x (by simp [hx]))]

theorem fuelNeed_le (w : List Char) : fuelNeed w ≤ 3 * w.length + 3 := by
  rw [fuelNeed]
  have : (match WordCasing.try_from w with
      | some WordCasing.allUppercase => 2
      | some WordCasing.mixed => 2
      | some WordCasing.titlecase => 1
      | _ => 0) ≤ 2 := by
    split <;> omega
  omega

theorem fuelNeed_pos (w : List Char) : 1 ≤ fuelNeed w := by
  rw [fuelNeed]; omega

/-- Fuel irrelevance: any fuel at least `fuelNeed w` (resp. `3·|w| + 1` for
the compound search) computes the same oracle answer. -/
theorem oracle_stable : ∀ n : Nat,
    (∀ (pred : List Char → Bool) (w : List Char) (m : Nat),
       fuelNeed w ≤ n → fuelNeed w ≤ m → is_validF pred n w = is_validF pred m w) ∧
    (∀ (pred : List Char → Bool) (w : List Char) (m : Nat),
       3 * w.length + 1 ≤ n → 3 * w.length + 1 ≤ m →
         is_compoundF pred n w = is_compoundF pred m w) := by
  intro n
  induction n using Nat.strong_induction_on with
  | _ n ih =>
    constructor
    · intro pred w m hn hm
      have h1 : 1 ≤ fuelNeed w := fuelNeed_pos w
      obtain ⟨n', rfl⟩ : ∃ n', n = n' + 1 := ⟨n - 1, by omega⟩
      obtain ⟨m', rfl⟩ : ∃ m', m = m' + 1 := ⟨m - 1, by omega⟩
      rw [is_validF, is_validF]
      cases htf : WordCasing.try_from w with
      | none => rfl
      | some x =>
        obtain ⟨hne, hall⟩ := try_from_some htf
        cases x with
        | allLowercase => rfl
        | allUppercase =>
          have htc := try_from_titlecase hne hall
          have hfw : fuelNeed w = 3 * w.length + 3 := by simp [fuelNeed, htf]
          have hft : fuelNeed (titlecase w) = 3 * w.length + 2 := by
            simp [fuelNeed, htc, titlecase_length]
          exact (ih n' (by omega)).1 pred (titlecase w) m' (by omega) (by omega)
        | mixed =>
          have htc := try_from_titlecase hne hall
          have hfw : fuelNeed w = 3 * w.length + 3 := by simp [fuelNeed, htf]
          have hft : fuelNeed (titlecase w) = 3 * w.length + 2 := by
            simp [fuelNeed, htc, titlecase_length]
          exact (ih n' (by omega)).1 pred (titlecase w) m' (by omega) (by omega)
        | titlecase =>
          have hfw : fuelNeed w = 3 * w.length + 2 := by simp [fuelNeed, htf]
          have hlow := try_from_toLower htf
          have hfl : fuelNeed (toLowerStr w) = 3 * w.length + 1 := by
            simp [fuelNeed, hlow, toLowerStr_length]
          have e1 : is_validF pred n' (toLowerStr w) = is_validF pred m' (toLowerStr w) :=
            (ih n' (by omega)).1 pred (toLowerStr w) m' (by omega) (by omega)
          have e2 : is_compoundF pred n' w = is_compoundF pred m' w :=
            (ih n' (by omega)).2 pred w m' (by omega) (by omega)
          rw [e1, e2]
    · intro pred w m hn hm
      obtain ⟨n', rfl⟩ : ∃ n', n = n' + 1 := ⟨n - 1, by omega⟩
      obtain ⟨m', rfl⟩ : ∃ m', m = m' + 1 := ⟨m - 1, by omega⟩
      rw [is_compoundF, is_compoundF]
      apply any_congr
      intro i hi
      have hib : 1 ≤ i ∧ i < 1 + (w.length - 1) := List.mem_range'_1.mp hi
      have hlen : 2 ≤ w.length := by omega
      have htake : (w.take i).length = i := by
        rw [List.length_take]; omega
      have hdrop : (w.drop i).length = w.length - i := by
        rw [List.length_drop]
      have hb1 : fuelNeed (w.take i) ≤ 3 * w.length := by
        have := fuelNeed_le (w.take i)
        rw [htake] at this
        omega
      have hb2 : fuelNeed (titlecase (w.drop i)) ≤ 3 * w.length := by
        have := fuelNeed_le (titlecase (w.drop i))
        rw [titlecase_length, hdrop] at this
        omega
      have e1 : is_validF pred n' (w.take i) = is_validF pred m' (w.take i) :=
        (ih n' (by omega)).1 pred (w.take i) m' (by omega) (by omega)
      have e2 : is_validF pred n' (titlecase (w.drop i)) =
          is_validF pred m' (titlecase (w.drop i)) :=
        (ih n' (by omega)).1 pred (titlecase (w.drop i)) m' (by omega) (by omega)
      rw [e1, e2]

/-- The compound search, expressed through the top-level oracle: a split
point strictly inside the word whose prefix the oracle accepts verbatim and
whose titlecased remainder the oracle accepts. -/
theorem is_compound_word_eq (pred : List Char → Bool) (w : List Char) :
    is_compound_word pred w =
      (List.range' 1 (w.length - 1)).any fun i =>
        is_valid pred (w.take i) && is_valid pred (titlecase (w.drop i)) := by
  rw [is_compound_word, is_compoundF]
  apply any_congr
  intro i hi
  have hib : 1 ≤ i ∧ i < 1 + (w.length - 1) := List.mem_range'_1.mp hi
  have htake : (w.take i).length = i := by
    rw [List.length_take]; omega
  have hb1 : fuelNeed (w.take i) ≤ 3 * w.length := by
    have := fuelNeed_le (w.take i)
    rw [htake] at this
    omega
  have hb2 : fuelNeed (titlecase (w.drop i)) ≤ 3 * w.length := by
    have := fuelNeed_le (titlecase (w.drop i))
    rw [titlecase_length, List.length_drop] at this
    omega
  have e1 : is_validF pred (3 * w.length) (w.take i) = is_valid pred (w.take i) :=
    (oracle_stable (3 * w.length)).1 pred (w.take i) (fuelNeed (w.take i)) hb1 le_rfl
  have e2 : is_validF pred (3 * w.length) (titlecase (w.drop i)) =
      is_valid pred (titlecase (w.drop i)) :=
    (oracle_stable (3 * w.length)).1 pred (titlecase (w.drop i))
      (fuelNeed (titlecase (w.drop i))) hb2 le_rfl
  rw [e1, e2, is_valid, is_valid]

/-! Properties of the power-set enumeration. -/
theorem maskSubset_zero {α : Type} (l : List α) : maskSubset 0 l = [] := by
  induction l with
  | nil => rfl
  | cons x xs ih => simp [maskSubset, ih]

theorem maskSubset_sublist {α : Type} (m : Nat) (l : List α) :
    (maskSubset m l).Sublist l := by
  induction l generalizing m with
  | nil => simp [maskSubset]
  | cons x xs ih =>
    rw [maskSubset]
    by_cases hm : m % 2 = 1
    · simp only [hm, if_pos rfl]
      exact (ih (m / 2)).cons₂ x
    · simp only [if_neg hm, List.nil_append]
      exact (ih (m / 2)).cons x

theorem maskSubset_ne_nil {α : Type} {m : Nat} {l : List α}
    (h1 : 1 ≤ m) (h2 : m < 2 ^ l.length) : maskSubset m l ≠ [] := by
  induction l generalizing m with
  | nil => simp at h2; omega
  | cons x xs ih =>
    rw [maskSubset]
    by_cases hm : m % 2 = 1
    · simp [hm]
    · simp only [if_neg hm, List.nil_append]
      have hpow : 2 ^ (x :: xs).length = 2 * 2 ^ xs.length := by
        rw [List.length_cons, pow_succ]; ring
      exact ih (by omega) (by omega)

theorem exists_mask {α : Type} {s l : List α} (h : s.Sublist l) :
    ∃ m, m < 2 ^ l.length ∧ maskSubset m l = s := by
  induction h with
  | slnil => exact ⟨0, by simp, rfl⟩
  | cons x h ih =>
    obtain ⟨m, hm, he⟩ := ih
    refine ⟨2 * m, ?_, ?_⟩
    · rw [List.length_cons, pow_succ]; omega
    · rw [maskSubset]
      have h2 : 2 * m % 2 = 0 := by omega
      have h3 : 2 * m / 2 = m := by omega
      simp [h2, h3, he]
  | cons₂ x h ih =>
    obtain ⟨m, hm, he⟩ := ih
    refine ⟨2 * m + 1, ?_, ?_⟩
    · rw [List.length_cons, pow_succ]; omega
    · rw [maskSubset]
      have h2 : (2 * m + 1) % 2 = 1 := by omega
      have h3 : (2 * m + 1) / 2 = m := by omega
      simp [h2, h3, he]

theorem maskSubset_inj {α : Type} {l : List α} (hnd : l.Nodup) :
    ∀ m₁ m₂ : Nat, m₁ < 2 ^ l.length → m₂ < 2 ^ l.length →
      maskSubset m₁ l = maskSubset m₂ l → m₁ = m₂ := by
  induction l with
  | nil => intro m₁ m₂ h1 h2 _; simp at h1 h2; omega
  | cons x xs ih =>
    intro m₁ m₂ h1 h2 heq
    have hx : x ∉ xs := (List.nodup_cons.mp hnd).1
    have hnd' : xs.Nodup := (List.nodup_cons.mp hnd).2
    have hpow : 2 ^ (x :: xs).length = 2 * 2 ^ xs.length := by
      rw [List.length_cons, pow_succ]; ring
    rw [maskSubset, maskSubset] at heq
    by_cases hm1 : m₁ % 2 = 1 <;> by_cases hm2 : m₂ % 2 = 1
    · simp [hm1, hm2] at heq
      have := ih hnd' (m₁ / 2) (m₂ / 2) (by omega) (by omega) heq
      omega
    · simp [hm1, hm2] at heq
      exfalso
      have hxmem : x ∈ maskSubset (m₂ / 2) xs := by
        rw [← heq]; exact List.mem_cons_self x _
      exact hx ((maskSubset_sublist (m₂ / 2) xs).subset hxmem)
    · simp [hm1, hm2] at heq
      exfalso
      have hxmem : x ∈ maskSubset (m₁ / 2) xs := by
        rw [heq]; exact List.mem_cons_self x _
      exact hx ((maskSubset_sublist (m₁ / 2) xs).subset hxmem)
    · simp [hm1, hm2] at heq
      have := ih hnd' (m₁ / 2) (m₂ / 2) (by omega) (by omega) heq
      omega

theorem mem_power_set_without_empty {α : Type} {l : List α} {s : List α} :
    s ∈ power_set_without_empty l ↔
      ∃ m, 1 ≤ m ∧ m < 2 ^ l.length ∧ maskSubset m l = s := by
  have hp : 1 ≤ 2 ^ l.length := Nat.one_le_two_pow
  constructor
  · intro h
    obtain ⟨m, hm, he⟩ := List.mem_map.mp h
    have := List.mem_range'_1.mp hm
    exact ⟨m, by omega, by omega, he⟩
  · intro ⟨m, h1, h2, he⟩
    exact List.mem_map.mpr ⟨m, List.mem_range'_1.mpr (by omega), he⟩

theorem fvrLoop_eq_find (pred : List Char → Bool) (word : List Char) :
    ∀ combos : List (List Replacement),
      fvrLoop pred word combos =
        (combos.map (apply_replacements word)).find? (is_valid pred) := by
  intro combos
  induction combos with
  | nil => rfl
  | cons rs rest ih =>
    rw [fvrLoop, List.map_cons, List.find?]
    by_cases hv : is_valid pred (apply_replacements word rs)
    · simp [hv]
    · simp only [Bool.not_eq_true] at hv
      simp [hv, ih]

/-- C1: for a word with `n` replacement opportunities, the search enumerates
exactly the `2^n − 1` non-empty subsets of the opportunities (never the
empty one), forms one candidate per subset by applying that subset to the
original content, and returns the first oracle-valid candidate in the fixed
ascending-bitmask enumeration order. -/
theorem find_valid_replacement_spec (pred : List Char → Bool)
    (word : List Char) (rs : List Replacement) :
    find_valid_replacement pred word rs =
      ((power_set_without_empty rs).map (apply_replacements word)).find?
        (is_valid pred)
    ∧ (power_set_without_empty rs).length = 2 ^ rs.length - 1
    ∧ (∀ s ∈ power_set_without_empty rs, s ≠ [] ∧ s.Sublist rs)
    ∧ (∀ s : List Replacement, s ≠ [] → s.Sublist rs →
        s ∈ power_set_without_empty rs)
    ∧ (rs.Nodup → (power_set_without_empty rs).Nodup) := by
  refine ⟨fvrLoop_eq_find pred word _, ?_, ?_, ?_, ?_⟩
  · rw [power_set_without_empty, List.length_map, List.length_range']
  · intro s hs
    obtain ⟨m, h1, h2, he⟩ := mem_power_set_without_empty.mp hs
    exact ⟨he ▸ maskSubset_ne_nil h1 h2, he ▸ maskSubset_sublist m rs⟩
  · intro s hne hsub
    obtain ⟨m, hm, he⟩ := exists_mask hsub
    have hm1 : 1 ≤ m := by
      by_contra hlt
      have hm0 : m = 0 := by omega
      rw [hm0, maskSubset_zero] at he
      exact hne he.symm
    exact mem_power_set_without_empty.mpr ⟨m, hm1, hm, he⟩
  · intro hnd
    refine List.Nodup.map_on ?_ (List.nodup_range' 1 (2 ^ rs.length - 1) 1
      (by omega))
    intro m₁ hm1 m₂ hm2 heq
    have hb1 := List.mem_range'_1.mp hm1
    have hb2 := List.mem_range'_1.mp hm2
    have hp : 1 ≤ 2 ^ rs.length := Nat.one_le_two_pow
    exact maskSubset_inj hnd m₁ m₂ (by omega) (by omega) heq

theorem find_valid_replacement_spec_witness :
    [repC1] ∈ power_set_without_empty [repC1] ∧
      (power_set_without_empty [repC1]).Nodup :=
  ⟨(find_valid_replacement_spec predC1 (['a', 'e']) [repC1]).2.2.2.1 [repC1]
      (by decide) (List.Sublist.refl _),
   (find_valid_replacement_spec predC1 (['a', 'e']) [repC1]).2.2.2.2
      (by decide)⟩

theorem driverStep_eq (pred : List Char → Bool)
    (p : List Char × Option WordAcc) (c : Char) :
    driverStep pred p c = (p.1 ++ stepOut pred p.2 c, stepState p.2 c) := by
  obtain ⟨out, st⟩ := p
  cases st <;> cases h : isWordChar c <;>
    simp [driverStep, machineTransition, stepOut, stepState, h]

theorem foldl_driver_out (pred : List Char → Bool) :
    ∀ (xs : List Char) (out : List Char) (st : Option WordAcc),
      List.foldl (driverStep pred) (out, st) xs =
        (out ++ (List.foldl (driverStep pred) ([], st) xs).1,
          (List.foldl (driverStep pred) ([], st) xs).2) := by
  intro xs
  induction xs with
  | nil => intro out st; simp
  | cons c rest ih =>
    intro out st
    rw [List.foldl_cons, List.foldl_cons, driverStep_eq, driverStep_eq]
    simp only [List.nil_append]
    rw [ih (out ++ stepOut pred st c) (stepState st c),
        ih (stepOut pred st c) (stepState st c)]
    simp [List.append_assoc]

theorem foldl_word_run (pred : List Char → Bool) :
    ∀ (run : List Char) (acc : WordAcc) (out : List Char),
      (∀ c ∈ run, isWordChar c = true) →
      List.foldl (driverStep pred) (out, some acc) run =
        (out, some (List.foldl pushChar acc run)) := by
  intro run
  induction run with
  | nil => intro acc out _; rfl
  | cons c rest ih =>
    intro acc out h
    have hc : isWordChar c = true := h c (by simp)
    rw [List.foldl_cons, driverStep_eq]
    simp only [stepOut, stepState, hc, if_true, List.append_nil]
    rw [List.foldl_cons]
    exact ih (pushChar acc c) out (fun x hx => h x (by simp [hx]))

theorem foldl_pushChar_content :
    ∀ (cs : List Char) (acc : WordAcc),
      (List.foldl pushChar acc cs).content = acc.content ++ cs := by
  intro cs
  induction cs with
  | nil => intro acc; simp
  | cons c rest ih =>
    intro acc
    rw [List.foldl_cons, ih]
    simp [pushChar]

theorem isWordChar_INDICATOR : isWordChar INDICATOR = false := by decide

/-- What the driver does to an input that is one single word run: it emits
the first valid replacement of that word, or the word itself. -/
theorem substitute_single_word (pred : List Char → Bool) (w : List Char)
    (hw : ∀ c ∈ w, isWordChar c = true) :
    substitute pred w =
      (find_valid_replacement pred w (register_replacements w)).getD w := by
  cases w with
  | nil =>
    rw [substitute]
    simp only [List.nil_append, List.foldl_cons, List.foldl_nil, driverStep_eq,
      stepOut, stepState, isWordChar_INDICATOR]
    simp [find_valid_replacement, register_replacements,
      power_set_without_empty, fvrLoop]
  | cons c cs =>
    have hc : isWordChar c = true := hw c (by simp)
    rw [substitute, List.cons_append, List.foldl_cons, driverStep_eq]
    simp only [stepOut, stepState, hc, if_true, List.append_nil]
    rw [List.foldl_append, foldl_word_run pred cs (newWord c) []
      (fun x hx => hw x (by simp [hx]))]
    rw [List.foldl_cons, List.foldl_nil, driverStep_eq]
    simp only [stepOut, stepState, isWordChar_INDICATOR, Bool.false_eq_true,
      if_false, List.nil_append]
    rw [List.dropLast_concat]
    rw [substWordAcc, foldl_pushChar_content]
    rfl

/-! Word-character invariants: everything a word run ever emits is made of
word-constituent characters, so non-word characters pass through alone. -/
theorem digraphTable_wordChar :
    ∀ t ∈ digraphTable, isWordChar t.2.2 = true := by decide

theorem digraphNative_wordChar {a b nc : Char}
    (h : digraphNative a b = some nc) : isWordChar nc = true := by
  rw [digraphNative] at h
  cases hf : digraphTable.find? (fun t => t.1 == a && t.2.1 == b) with
  | none => rw [hf] at h; simp at h
  | some t =>
    rw [hf] at h
    have hmem := List.mem_of_find?_eq_some hf
    have hnc : t.2.2 = nc := by simpa using h
    rw [← hnc]
    exact digraphTable_wordChar t hmem

theorem accOk_newWord {c : Char} (h : isWordChar c = true) :
    accOk (newWord c) := by
  constructor
  · intro x hx
    simp only [newWord, List.mem_singleton] at hx
    rw [hx]; exact h
  · intro r hr
    simp [newWord] at hr

theorem accOk_pushChar {acc : WordAcc} {c : Char} (ha : accOk acc)
    (hc : isWordChar c = true) : accOk (pushChar acc c) := by
  constructor
  · intro x hx
    simp only [pushChar, List.mem_append, List.mem_singleton] at hx
    rcases hx with hx | rfl
    · exact ha.1 x hx
    · exact hc
  · cases hlast : acc.content.getLast? with
    | none =>
      intro r hr
      simp only [pushChar, hlast] at hr
      exact ha.2 r hr
    | some p =>
      cases hdg : digraphNative p c with
      | none =>
        intro r hr
        simp only [pushChar, hlast, hdg] at hr
        exact ha.2 r hr
      | some nc =>
        intro r hr
        simp only [pushChar, hlast, hdg, List.mem_append,
          List.mem_singleton] at hr
        rcases hr with hr | rfl
        · exact ha.2 r hr
        · exact digraphNative_wordChar hdg

theorem applyFrom_chars (content : List Char) :
    ∀ (rs : List Replacement) (pos : Nat),
      (∀ c ∈ content, isWordChar c = true) →
      (∀ r ∈ rs, isWordChar r.native = true) →
      ∀ x ∈ applyFrom content pos rs, isWordChar x = true := by
  intro rs
  induction rs with
  | nil =>
    intro pos hc _ x hx
    rw [applyFrom] at hx
    exact hc x ((List.drop_sublist pos content).subset hx)
  | cons r rest ih =>
    intro pos hc hr x hx
    rw [applyFrom] at hx
    simp only [List.mem_append, List.mem_cons] at hx
    rcases hx with hx | rfl | hx
    · exact hc x ((List.drop_sublist pos content).subset
        ((List.take_sublist _ _).subset hx))
    · exact hr r (by simp)
    · exact ih r.stop hc (fun q hq => hr q (by simp [hq])) x hx

theorem substWordAcc_chars {pred : List Char → Bool} {acc : WordAcc}
    (ha : accOk acc) : ∀ x ∈ substWordAcc pred acc, isWordChar x = true := by
  rw [substWordAcc]
  cases hf : find_valid_replacement pred acc.content acc.replacements with
  | none =>
    intro x hx
    exact ha.1 x (by simpa using hx)
  | some cand =>
    intro x hx
    simp only [Option.getD_some] at hx
    rw [find_valid_replacement, fvrLoop_eq_find] at hf
    have hmem := List.mem_of_find?_eq_some hf
    obtain ⟨s, hs, he⟩ := List.mem_map.mp hmem
    obtain ⟨m, _, _, hmask⟩ := mem_power_set_without_empty.mp hs
    have hsub : s.Sublist acc.replacements := hmask ▸ maskSubset_sublist m _
    have hsr : ∀ r ∈ s, isWordChar r.native = true :=
      fun r hr => ha.2 r (hsub.subset hr)
    rw [← he] at hx
    exact applyFrom_chars acc.content s 0 ha.1 hsr x hx

theorem foldl_filter_nonword (pred : List Char → Bool) :
    ∀ (xs : List Char) (st : Option WordAcc), stOk st →
      (List.foldl (driverStep pred) ([], st) xs).1.filter
          (fun c => !isWordChar c)
        = xs.filter (fun c => !isWordChar c) := by
  intro xs
  induction xs with
  | nil => intro st _; rfl
  | cons c rest ih =>
    intro st hst
    rw [List.foldl_cons, driverStep_eq]
    simp only [List.nil_append]
    rw [foldl_driver_out pred rest (stepOut pred st c) (stepState st c)]
    simp only [List.filter_append]
    cases st with
    | none =>
      cases hc : isWordChar c with
      | false =>
        rw [ih (stepState none c) (by simp [stepState, hc, stOk])]
        simp [stepOut, hc, List.filter_cons]
      | true =>
        rw [ih (stepState none c)
          (by simp [stepState, hc, stOk, accOk_newWord hc])]
        simp [stepOut, hc, List.filter_cons]
    | some acc =>
      cases hc : isWordChar c with
      | false =>
        rw [ih (stepState (some acc) c) (by simp [stepState, hc, stOk])]
        have hflush : (substWordAcc pred acc).filter (fun c => !isWordChar c)
            = [] := by
          apply List.filter_eq_nil_iff.mpr
          intro x hx
          simp [substWordAcc_chars hst x hx]
        simp [stepOut, hc, List.filter_append, hflush, List.filter_cons]
      | true =>
        rw [ih (stepState (some acc) c)
          (by simp [stepState, hc, stOk, accOk_pushChar hst hc])]
        simp [stepOut, hc, List.filter_cons]

/-- The loop output always ends with the echoed sentinel, with the machine
back outside a word. -/
theorem foldl_sentinel (pred : List Char → Bool) (input : List Char) :
    ∃ realOut,
      List.foldl (driverStep pred) ([], none) (input ++ [INDICATOR])
        = (realOut ++ [INDICATOR], none) := by
  rw [List.foldl_append]
  cases hps : List.foldl (driverStep pred) ([], none) input with
  | mk o s =>
    cases s with
    | none =>
      refine ⟨o, ?_⟩
      rw [List.foldl_cons, List.foldl_nil, driverStep_eq]
      simp [stepOut, stepState, isWordChar_INDICATOR]
    | some acc =>
      refine ⟨o ++ substWordAcc pred acc, ?_⟩
      rw [List.foldl_cons, List.foldl_nil, driverStep_eq]
      simp [stepOut, stepState, isWordChar_INDICATOR, List.append_assoc]

/-- Shared helper: substitution preserves the subsequence of non-word
characters exactly. -/
theorem substitute_filter_eq (pred : List Char → Bool) (input : List Char) :
    (substitute pred input).filter (fun c => !isWordChar c)
      = input.filter (fun c => !isWordChar c) := by
  obtain ⟨realOut, hL⟩ := foldl_sentinel pred input
  have hfull := foldl_filter_nonword pred (input ++ [INDICATOR]) none trivial
  rw [hL] at hfull
  rw [List.filter_append, List.filter_append] at hfull
  have hfi : [INDICATOR].filter (fun c => !isWordChar c) = [INDICATOR] := by
    decide
  rw [hfi] at hfull
  have hreal := List.append_cancel_right hfull
  rw [substitute, hL, List.dropLast_concat]
  exact hreal

/-- C7: all non-word characters of the input are copied to the output
unchanged, preserving order, multiplicity and exact values; only characters
inside word runs can differ. -/
theorem nonword_passthrough (pred : List Char → Bool) (input : List Char) :
    (substitute pred input).filter (fun c => !isWordChar c)
      = input.filter (fun c => !isWordChar c) :=
  substitute_filter_eq pred input

/-- C9: substitution is total and always returns a success value; no input
reaches an error of the stage's error type. -/
theorem substitute_total_ok (pred : List Char → Bool) (input : List Char) :
    substituteStage pred input = Except.ok (substitute pred input)
    ∧ ∀ e : StageError, substituteStage pred input ≠ Except.error e := by
  exact ⟨rfl, fun e h => by simp [substituteStage] at h⟩

theorem count_indicator_filter (l : List Char) :
    (l.filter (fun c => !isWordChar c)).count INDICATOR
      = l.count INDICATOR := by
  induction l with
  | nil => rfl
  | cons c rest ih =>
    cases hc : isWordChar c with
    | false => simp [List.filter_cons, hc, List.count_cons, ih]
    | true =>
      have hne : (c == INDICATOR) = false := by
        cases hbe : c == INDICATOR with
        | false => rfl
        | true =>
          have hceq : c = INDICATOR := by simpa using hbe
          rw [hceq, isWordChar_INDICATOR] at hc
          exact absurd hc (by simp)
      simp [List.filter_cons, hc, List.count_cons, hne, ih]

/-- C10: after the loop over the input extended with the synthetic sentinel,
the output buffer is non-empty and its last character is the sentinel, so the
final pop removes exactly the sentinel; NUL characters inside the input pass
through as ordinary non-word characters. -/
theorem sentinel_discipline (pred : List Char → Bool) (input : List Char) :
    (List.foldl (driverStep pred) ([], none) (input ++ [INDICATOR])).1 ≠ []
    ∧ (List.foldl (driverStep pred) ([], none)
        (input ++ [INDICATOR])).1.getLast? = some INDICATOR
    ∧ substitute pred input
        = (List.foldl (driverStep pred) ([], none)
            (input ++ [INDICATOR])).1.dropLast
    ∧ (substitute pred input).count INDICATOR = input.count INDICATOR := by
  obtain ⟨realOut, hL⟩ := foldl_sentinel pred input
  refine ⟨?_, ?_, rfl, ?_⟩
  · rw [hL]; simp
  · rw [hL]; exact List.getLast?_concat realOut
  · have hfe := substitute_filter_eq pred input
    calc (substitute pred input).count INDICATOR
        = ((substitute pred input).filter (fun c => !isWordChar c)).count
            INDICATOR := (count_indicator_filter _).symm
      _ = (input.filter (fun c => !isWordChar c)).count INDICATOR := by
            rw [hfe]
      _ = input.count INDICATOR := count_indicator_filter _

/-- C2: when no candidate derived from a word's opportunities validates — in
particular when the word has no opportunities at all — the word's original
content is emitted unchanged. -/
theorem substitute_fallback_original (pred : List Char → Bool) (w : List Char)
    (hw : ∀ c ∈ w, isWordChar c = true) :
    (find_valid_replacement pred w (register_replacements w) = none →
       substitute pred w = w)
    ∧ (register_replacements w = [] → substitute pred w = w) := by
  have hs := substitute_single_word pred w hw
  constructor
  · intro hnone
    rw [hs, hnone]
    rfl
  · intro hrep
    rw [hs, hrep]
    rfl

theorem substitute_fallback_original_witness :
    substitute predFalse (['a', 'b']) = ['a', 'b'] :=
  (substitute_fallback_original predFalse (['a', 'b']) (by decide)).2
    (by decide)

/-! Idempotence.  A successful substitution can itself be substitutable
further when the dictionary also contains a partially replaced form, so
idempotence-on-success holds only when the changed word admits no further
valid candidate. -/
theorem accOk_foldl :
    ∀ (cs : List Char) (acc : WordAcc), accOk acc →
      (∀ c ∈ cs, isWordChar c = true) →
      accOk (List.foldl pushChar acc cs) := by
  intro cs
  induction cs with
  | nil => intro acc ha _; exact ha
  | cons c rest ih =>
    intro acc ha h
    rw [List.foldl_cons]
    exact ih (pushChar acc c) (accOk_pushChar ha (h c (by simp)))
      (fun x hx => h x (by simp [hx]))

theorem register_replacements_natives {w : List Char}
    (hw : ∀ c ∈ w, isWordChar c = true) :
    ∀ r ∈ register_replacements w, isWordChar r.native = true := by
  cases w with
  | nil => intro r hr; simp [register_replacements] at hr
  | cons c cs =>
    have hacc : accOk (List.foldl pushChar (newWord c) cs) :=
      accOk_foldl cs (newWord c) (accOk_newWord (hw c (by simp)))
        (fun x hx => hw x (by simp [hx]))
    exact hacc.2

theorem fvr_some_chars {pred : List Char → Bool} {w cand : List Char}
    {rs : List Replacement} (hw : ∀ c ∈ w, isWordChar c = true)
    (hr : ∀ r ∈ rs, isWordChar r.native = true)
    (hf : find_valid_replacement pred w rs = some cand) :
    ∀ x ∈ cand, isWordChar x = true := by
  intro x hx
  rw [find_valid_replacement, fvrLoop_eq_find] at hf
  have hmem := List.mem_of_find?_eq_some hf
  obtain ⟨s, hs, he⟩ := List.mem_map.mp hmem
  obtain ⟨m, _, _, hmask⟩ := mem_power_set_without_empty.mp hs
  have hsub : s.Sublist rs := hmask ▸ maskSubset_sublist m _
  have hsr : ∀ q ∈ s, isWordChar q.native = true :=
    fun q hq => hr q (hsub.subset hq)
  rw [← he] at hx
  exact applyFrom_chars w s 0 hw hsr x hx

/-- C8 counterexample: with a dictionary containing both "süss" and "süß",
substituting "suess" yields "süss", and substituting "süss" yields "süß" —
the first run's output is changed again by a second run. -/
theorem substitute_not_idempotent :
    substitute predD (['s', 'u', 'e', 's', 's']) = ['s', 'ü', 's', 's']
    ∧ substitute predD (['s', 'u', 'e', 's', 's']) ≠ ['s', 'u', 'e', 's', 's']
    ∧ substitute predD (substitute predD (['s', 'u', 'e', 's', 's']))
        ≠ substitute predD (['s', 'u', 'e', 's', 's']) := by
  refine ⟨by decide, by decide, by decide⟩

/-- C8 amended: if `substitute` changes a word `w` to `w′`, then re-running
it on `w′` leaves `w′` unchanged, provided no non-empty subset of the
replacement opportunities of `w′` yields an oracle-valid candidate. -/
theorem substitute_idempotent_of_no_further_candidate
    (pred : List Char → Bool) (w : List Char)
    (hw : ∀ c ∈ w, isWordChar c = true)
    (_hchange : substitute pred w ≠ w)
    (hnone : find_valid_replacement pred (substitute pred w)
        (register_replacements (substitute pred w)) = none) :
    substitute pred (substitute pred w) = substitute pred w := by
  have hw' : ∀ c ∈ substitute pred w, isWordChar c = true := by
    rw [substitute_single_word pred w hw]
    cases hf : find_valid_replacement pred w (register_replacements w) with
    | none => simpa using hw
    | some cand =>
      simp only [Option.getD_some]
      exact fvr_some_chars hw (register_replacements_natives hw) hf
  rw [substitute_single_word pred (substitute pred w) hw', hnone]
  rfl

theorem substitute_idempotent_witness :
    substitute predD1 (substitute predD1 (['s', 'u', 'e', 's', 's']))
      = substitute predD1 (['s', 'u', 'e', 's', 's']) :=
  substitute_idempotent_of_no_further_candidate predD1
    (['s', 'u', 'e', 's', 's']) (by decide) (by decide) (by decide)

/-! Claim theorems about the oracle's casing dispatch. -/
/-- C3: a Titlecase word is valid iff it is in the dictionary directly, or
its lowercased form is, or compound decomposition succeeds; and the compound
search is the split-point search through the oracle. -/
theorem is_valid_titlecase_rule (pred : List Char → Bool) (w : List Char)
    (h : WordCasing.try_from w = some WordCasing.titlecase) :
    is_valid pred w
      = (pred w || pred (toLowerStr w) || is_compound_word pred w)
    ∧ is_compound_word pred w
      = (List.range' 1 (w.length - 1)).any fun i =>
          is_valid pred (w.take i) && is_valid pred (titlecase (w.drop i)) := by
  refine ⟨?_, is_compound_word_eq pred w⟩
  rw [is_valid_titlecase h, is_valid_lower (try_from_toLower h)]

theorem is_valid_titlecase_rule_witness :
    WordCasing.try_from (['A', 'b']) = some WordCasing.titlecase
    ∧ is_valid predAb (['A', 'b'])
        = (predAb (['A', 'b']) || predAb (toLowerStr (['A', 'b'])) ||
            is_compound_word predAb (['A', 'b'])) :=
  ⟨by decide, (is_valid_titlecase_rule predAb (['A', 'b']) (by decide)).1⟩

/-- C4: an AllUppercase or Mixed word is valid iff its titlecased form is,
and that titlecased form itself classifies as Titlecase; an AllLowercase
word is valid iff it is in the dictionary directly. -/
theorem is_valid_casing_normalization (pred : List Char → Bool)
    (w : List Char) :
    ((WordCasing.try_from w = some WordCasing.allUppercase ∨
        WordCasing.try_from w = some WordCasing.mixed) →
      is_valid pred w = is_valid pred (titlecase w)
      ∧ WordCasing.try_from (titlecase w) = some WordCasing.titlecase)
    ∧ (WordCasing.try_from w = some WordCasing.allLowercase →
        is_valid pred w = pred w) := by
  constructor
  · intro h
    have hsome : ∃ x, WordCasing.try_from w = some x := by
      rcases h with h | h <;> exact ⟨_, h⟩
    obtain ⟨x, hx⟩ := hsome
    obtain ⟨hne, hall⟩ := try_from_some hx
    exact ⟨is_valid_upper_mixed h, try_from_titlecase hne hall⟩
  · exact fun h => is_valid_lower h

theorem is_valid_casing_normalization_witness :
    is_valid predFalse (['A', 'B'])
        = is_valid predFalse (titlecase (['A', 'B']))
    ∧ WordCasing.try_from (titlecase (['A', 'B']))
        = some WordCasing.titlecase :=
  (is_valid_casing_normalization predFalse (['A', 'B'])).1 (Or.inl (by decide))

/-- C5: when casing classification fails — on the empty string or on any
string containing a character outside the recognized alphabet — the oracle
answers false. -/
theorem is_valid_unclassifiable (pred : List Char → Bool) :
    (∀ w : List Char, WordCasing.try_from w = none → is_valid pred w = false)
    ∧ is_valid pred [] = false
    ∧ is_valid pred (['🤩', 'D', 'ü', 'b', 'e', 'l']) = false := by
  refine ⟨fun w h => is_valid_none h, ?_, ?_⟩
  · exact is_valid_none rfl
  · exact is_valid_none (by decide)

theorem is_valid_unclassifiable_witness :
    is_valid predFalse (['1']) = false :=
  (is_valid_unclassifiable predFalse).1 (['1']) (by decide)

/-! Comparison facts. -/
theorem charNat_inj {a b : Char} (h : a.toNat = b.toNat) : a = b := by
  have h2 := congrArg Char.ofNat h
  rwa [Char.ofNat_toNat, Char.ofNat_toNat] at h2

theorem cmp_self : ∀ a : List Char, cmpChars a a = Ordering.eq := by
  intro a
  induction a with
  | nil => rfl
  | cons c cs ih => simp [cmpChars, ih]

theorem eq_of_cmp_eq : ∀ {a b : List Char},
    cmpChars a b = Ordering.eq → a = b := by
  intro a
  induction a with
  | nil =>
    intro b h
    cases b with
    | nil => rfl
    | cons y ys => simp [cmpChars] at h
  | cons x xs ih =>
    intro b h
    cases b with
    | nil => simp [cmpChars] at h
    | cons y ys =>
      rw [cmpChars] at h
      by_cases h1 : x.toNat < y.toNat
      · simp [h1] at h
      · by_cases h2 : y.toNat < x.toNat
        · simp [h1, h2] at h
        · simp only [h1, h2, if_false] at h
          have hxy : x = y := charNat_inj (by omega)
          rw [hxy, ih (by simpa [h1, h2] using h)]

theorem cmp_swap_lt : ∀ {a b : List Char},
    cmpChars a b = Ordering.lt → cmpChars b a = Ordering.gt := by
  intro a
  induction a with
  | nil =>
    intro b h
    cases b with
    | nil => simp [cmpChars] at h
    | cons y ys => simp [cmpChars]
  | cons x xs ih =>
    intro b h
    cases b with
    | nil => simp [cmpChars] at h
    | cons y ys =>
      rw [cmpChars] at h
      rw [cmpChars]
      by_cases h1 : x.toNat < y.toNat
      · have hny : ¬ y.toNat < x.toNat := by omega
        simp [h1, hny]
      · by_cases h2 : y.toNat < x.toNat
        · simp [h1, h2] at h
        · simp only [h1, h2, if_false] at h ⊢
          exact ih h

/-! Index arithmetic for `findIdx` and line positions. -/
theorem findIdx_all_false {p : Char → Bool} :
    ∀ {l : List Char}, (∀ x ∈ l, p x = false) → l.findIdx p = l.length := by
  intro l
  induction l with
  | nil => intro _; rfl
  | cons c cs ih =>
    intro h
    rw [List.findIdx_cons, h c (by simp)]
    simp [ih (fun x hx => h x (by simp [hx]))]

theorem findIdx_le_len {p : Char → Bool} : ∀ l : List Char,
    l.findIdx p ≤ l.length := by
  intro l
  induction l with
  | nil => simp
  | cons c cs ih =>
    rw [List.findIdx_cons, List.length_cons]
    cases hp : p c
    · simp only [Bool.cond_false]
      omega
    · simp only [Bool.cond_true]
      omega

theorem findIdx_append_split {p : Char → Bool} :
    ∀ (l₁ l₂ : List Char),
      (l₁ ++ l₂).findIdx p =
        if l₁.findIdx p < l₁.length then l₁.findIdx p
        else l₁.length + l₂.findIdx p := by
  intro l₁
  induction l₁ with
  | nil => intro l₂; simp
  | cons c cs ih =>
    intro l₂
    rw [List.cons_append, List.findIdx_cons, List.findIdx_cons]
    cases hp : p c with
    | true => simp
    | false =>
      simp only [Bool.cond_false]
      rw [ih l₂]
      by_cases hlt : cs.findIdx p < cs.length
      · have h1 : cs.findIdx p + 1 < (c :: cs).length := by
          rw [List.length_cons]; omega
        simp [hlt, h1]
      · have h1 : ¬ (cs.findIdx p + 1 < (c :: cs).length) := by
          rw [List.length_cons]; omega
        simp [hlt, h1, List.length_cons]
        omega

theorem findIdx_sep_head {sep : Char} (l : List Char) :
    (sep :: l).findIdx (fun c => c == sep) = 0 := by
  rw [List.findIdx_cons]
  simp

theorem startPos_succ {lines : List (List Char)} :
    ∀ {k : Nat}, k < lines.length →
      startPos lines (k + 1) = endPos lines k + 1 := by
  induction lines with
  | nil => intro k h; simp at h
  | cons l ls ih =>
    intro k h
    cases k with
    | zero => simp [startPos, endPos, lineAt]
    | succ k =>
      have hk : k < ls.length := by
        rw [List.length_cons] at h; omega
      show l.length + 1 + startPos ls (k + 1) = _
      rw [ih hk]
      simp [endPos, startPos, lineAt, List.getD_cons_succ]
      try omega

theorem startPos_mono_succ (lines : List (List Char)) :
    ∀ k, startPos lines k ≤ startPos lines (k + 1) := by
  induction lines with
  | nil =>
    intro k
    cases k <;> simp [startPos]
  | cons l ls ih =>
    intro k
    cases k with
    | zero => simp [startPos]
    | succ k =>
      show l.length + 1 + startPos ls k ≤ l.length + 1 + startPos ls (k + 1)
      have := ih k
      omega

theorem startPos_mono (lines : List (List Char)) {k j : Nat} (h : k ≤ j) :
    startPos lines k ≤ startPos lines j := by
  induction j with
  | zero =>
    have hk : k = 0 := by omega
    rw [hk]
  | succ j ih =>
    by_cases hkj : k = j + 1
    · rw [hkj]
    · have := ih (by omega)
      have := startPos_mono_succ lines j
      omega

theorem joinSep_length (sep : Char) :
    ∀ lines : List (List Char),
      (joinSep sep lines).length = startPos lines lines.length := by
  intro lines
  induction lines with
  | nil => rfl
  | cons l ls ih =>
    show ((l ++ [sep]) ++ joinSep sep ls).length = _
    rw [List.length_append, List.length_append, ih]
    simp [startPos]
    try omega

theorem endPos_lt_length {sep : Char} {lines : List (List Char)} {k : Nat}
    (h : k < lines.length) :
    endPos lines k < (joinSep sep lines).length := by
  have h1 := startPos_succ h
  have h2 := startPos_mono lines (show k + 1 ≤ lines.length by omega)
  rw [joinSep_length]
  omega

theorem joinSep_cons (sep : Char) (w : List Char) (ws : List (List Char)) :
    joinSep sep (w :: ws) = w ++ sep :: joinSep sep ws := by
  show (w ++ [sep]) ++ joinSep sep ws = _
  rw [List.append_assoc]
  rfl

/-- Probing any offset of the joined text expands to the boundaries of the
enclosing line: the extracted slice is exactly one of the dictionary's
lines, and the probed offset lies within that line's span. -/
theorem probe_line {sep : Char} :
    ∀ (lines : List (List Char)) (mid : Nat),
      (∀ l ∈ lines, ∀ x ∈ l, (x == sep) = false) →
      mid < (joinSep sep lines).length →
      ∃ k, k < lines.length
        ∧ lineStartFrom (joinSep sep lines) sep mid = startPos lines k
        ∧ lineEndFrom (joinSep sep lines) sep mid = endPos lines k
        ∧ ((joinSep sep lines).drop (startPos lines k)).take
            (endPos lines k - startPos lines k) = lineAt lines k
        ∧ startPos lines k ≤ mid ∧ mid ≤ endPos lines k := by
  intro lines
  induction lines with
  | nil =>
    intro mid _ hm
    simp [joinSep] at hm
  | cons w ws ih =>
    intro mid hsep hm
    have hcons := joinSep_cons sep w ws
    have hwsep : ∀ x ∈ w, (x == sep) = false := hsep w (by simp)
    have hlen : (joinSep sep (w :: ws)).length
        = w.length + 1 + (joinSep sep ws).length := by
      rw [hcons, List.length_append, List.length_cons]
      omega
    by_cases hmid : mid ≤ w.length
    · refine ⟨0, by simp, ?_, ?_, ?_, by simp [startPos], ?_⟩
      · rw [lineStartFrom, hcons]
        have htake : (w ++ sep :: joinSep sep ws).take mid = w.take mid := by
          rw [List.take_append_eq_append_take]
          have h0 : mid - w.length = 0 := by omega
          rw [h0]
          simp
        rw [htake]
        have hall : ∀ x ∈ (w.take mid).reverse, (x == sep) = false := by
          intro x hx
          exact hwsep x
            ((List.take_sublist mid w).subset (List.mem_reverse.mp hx))
        rw [findIdx_all_false hall, List.length_reverse, List.length_take]
        have hmin : min mid w.length = mid := by omega
        rw [hmin]
        simp [startPos]
      · rw [lineEndFrom, hcons]
        have hdrop : (w ++ sep :: joinSep sep ws).drop mid
            = w.drop mid ++ sep :: joinSep sep ws := by
          rw [List.drop_append_eq_append_drop]
          have h0 : mid - w.length = 0 := by omega
          rw [h0]
          simp
        rw [hdrop]
        have hnf : ∀ x ∈ w.drop mid, (x == sep) = false :=
          fun x hx => hwsep x ((List.drop_sublist mid w).subset hx)
        rw [findIdx_append_split, findIdx_all_false hnf]
        simp only [lt_irrefl, if_false, findIdx_sep_head, List.length_drop]
        simp [endPos, startPos, lineAt]
        omega
      · have hstart : startPos (w :: ws) 0 = 0 := rfl
        have hend : endPos (w :: ws) 0 = w.length := by
          simp [endPos, startPos, lineAt]
        rw [hcons, hstart, hend, List.drop_zero, Nat.sub_zero]
        rw [List.take_append_eq_append_take]
        simp [lineAt]
      · simp [endPos, startPos, lineAt]
        omega
    · obtain ⟨m', rfl⟩ : ∃ m', mid = w.length + 1 + m' :=
        ⟨mid - w.length - 1, by omega⟩
      rw [hlen] at hm
      have hm' : m' < (joinSep sep ws).length := by omega
      obtain ⟨k', hk', hs', he', hex', hb1', hb2'⟩ :=
        ih m' (fun l hl => hsep l (by simp [hl])) hm'
      have hstart : startPos (w :: ws) (k' + 1)
          = w.length + 1 + startPos ws k' := rfl
      have hendeq : endPos (w :: ws) (k' + 1)
          = w.length + 1 + endPos ws k' := by
        simp only [endPos, startPos, lineAt, List.getD_cons_succ]
        omega
      refine ⟨k' + 1, by simp; omega, ?_, ?_, ?_, ?_, ?_⟩
      · rw [lineStartFrom, hcons]
        have htake : (w ++ sep :: joinSep sep ws).take (w.length + 1 + m')
            = w ++ sep :: (joinSep sep ws).take m' := by
          rw [List.take_append_eq_append_take]
          have h2 : w.length + 1 + m' - w.length = m' + 1 := by omega
          rw [h2, List.take_of_length_le (by omega)]
          rfl
        rw [htake, List.reverse_append, List.reverse_cons, List.append_assoc]
        rw [findIdx_append_split]
        rw [lineStartFrom] at hs'
        have hAlen : ((joinSep sep ws).take m').reverse.length = m' := by
          rw [List.length_reverse, List.length_take]
          omega
        by_cases hA : ((joinSep sep ws).take m').reverse.findIdx
            (fun c => c == sep) < ((joinSep sep ws).take m').reverse.length
        · rw [if_pos hA]
          rw [hstart]
          rw [hAlen] at hA
          omega
        · rw [if_neg hA]
          have hle : ((joinSep sep ws).take m').reverse.findIdx
              (fun c => c == sep)
                ≤ ((joinSep sep ws).take m').reverse.length :=
            findIdx_le_len _
          have hAe : ((joinSep sep ws).take m').reverse.findIdx
              (fun c => c == sep) = m' := by omega
          rw [hAe] at hs'
          simp only [List.singleton_append, findIdx_sep_head]
          rw [hstart]
          omega
      · rw [lineEndFrom, hcons]
        have hdrop : (w ++ sep :: joinSep sep ws).drop (w.length + 1 + m')
            = (joinSep sep ws).drop m' := by
          rw [List.drop_append_eq_append_drop]
          have h2 : w.length + 1 + m' - w.length = m' + 1 := by omega
          rw [h2, List.drop_eq_nil_of_le (by omega)]
          simp
        rw [hdrop, hendeq]
        rw [lineEndFrom] at he'
        omega
      · have harith : endPos (w :: ws) (k' + 1) - startPos (w :: ws) (k' + 1)
            = endPos ws k' - startPos ws k' := by
          rw [hstart, hendeq]
          omega
        have hdrop2 : (joinSep sep (w :: ws)).drop
            (startPos (w :: ws) (k' + 1))
            = (joinSep sep ws).drop (startPos ws k') := by
          rw [hcons, hstart, List.drop_append_eq_append_drop]
          have h2 : w.length + 1 + startPos ws k' - w.length
              = startPos ws k' + 1 := by omega
          rw [h2, List.drop_eq_nil_of_le (by omega)]
          simp
        rw [harith, hdrop2]
        have hla : lineAt (w :: ws) (k' + 1) = lineAt ws k' := by
          simp [lineAt]
        rw [hla]
        exact hex'
      · rw [hstart]
        omega
      · rw [hendeq]
        omega

theorem lineAt_mem : ∀ {lines : List (List Char)} {k : Nat},
    k < lines.length → lineAt lines k ∈ lines := by
  intro lines
  induction lines with
  | nil => intro k h; simp at h
  | cons l ls ih =>
    intro k h
    cases k with
    | zero => simp [lineAt]
    | succ k' =>
      simp only [lineAt, List.getD_cons_succ]
      exact List.mem_cons_of_mem l (ih (by simpa using h))

theorem sorted_lineAt : ∀ {lines : List (List Char)}, lines.Pairwise ltC →
    ∀ {k j : Nat}, k < j → j < lines.length →
      ltC (lineAt lines k) (lineAt lines j) := by
  intro lines
  induction lines with
  | nil => intro _ k j _ hj; simp at hj
  | cons l ls ih =>
    intro hp k j hkj hj
    have hhead := (List.pairwise_cons.mp hp).1
    have hrest := (List.pairwise_cons.mp hp).2
    cases k with
    | zero =>
      obtain ⟨j', rfl⟩ : ∃ j', j = j' + 1 := ⟨j - 1, by omega⟩
      have hla : lineAt (l :: ls) (j' + 1) = lineAt ls j' := by simp [lineAt]
      rw [hla]
      have hj' : j' < ls.length := by simpa using hj
      exact hhead _ (lineAt_mem hj')
    | succ k' =>
      obtain ⟨j', rfl⟩ : ∃ j', j = j' + 1 := ⟨j - 1, by omega⟩
      simp only [lineAt, List.getD_cons_succ]
      exact ih hrest (by omega) (by simpa using hj)

/-- Correctness of the search loop: under the invariant that any line equal
to the needle lies inside the current range, the loop answers exactly
whether the needle is one of the lines. -/
theorem bsuGo_mem {needle : List Char} {lines : List (List Char)} {sep : Char}
    (hsep : ∀ l ∈ lines, ∀ x ∈ l, (x == sep) = false)
    (hsort : lines.Pairwise ltC) :
    ∀ (fuel lo hi : Nat),
      hi ≤ (joinSep sep lines).length →
      hi - lo < fuel →
      (∀ k, k < lines.length → lineAt lines k = needle →
        lo ≤ startPos lines k ∧ endPos lines k < hi) →
      (bsuGo needle (joinSep sep lines) sep fuel lo hi = true
        ↔ ∃ k, k < lines.length ∧ lineAt lines k = needle) := by
  intro fuel
  induction fuel with
  | zero =>
    intro lo hi _ hf _
    exact absurd hf (by omega)
  | succ fuel ih =>
    intro lo hi hhi hf hinv
    by_cases hlohi : lo < hi
    · have hmlt : lo + (hi - lo) / 2 < (joinSep sep lines).length := by omega
      have hmidlt : lo + (hi - lo) / 2 < hi := by omega
      obtain ⟨j, hj, hsj, hej, hexj, hb1, hb2⟩ :=
        probe_line lines (lo + (hi - lo) / 2) hsep hmlt
      rw [bsuGo, if_pos hlohi]
      simp only [hsj, hej, hexj]
      cases hcmp : cmpChars needle (lineAt lines j) with
      | lt =>
        simp only [hcmp]
        have hkj : ∀ k, k < lines.length → lineAt lines k = needle →
            k < j := by
          intro k hk he
          by_contra hge
          rcases Nat.lt_or_ge j k with hjk | hjk2
          · have hlt := sorted_lineAt hsort hjk hk
            rw [he] at hlt
            have hgt := cmp_swap_lt hlt
            rw [hcmp] at hgt
            simp at hgt
          · have hkeq : k = j := by omega
            rw [hkeq] at he
            rw [← he, cmp_self] at hcmp
            simp at hcmp
        refine ih lo (startPos lines j) (by omega) (by omega) ?_
        intro k hk he
        have hold := hinv k hk he
        have hklt := hkj k hk he
        have hsucc := startPos_succ hk
        have hmono := startPos_mono lines (show k + 1 ≤ j by omega)
        exact ⟨hold.1, by omega⟩
      | eq =>
        simp only [hcmp]
        constructor
        · intro _
          exact ⟨j, hj, (eq_of_cmp_eq hcmp).symm⟩
        · intro _
          trivial
      | gt =>
        simp only [hcmp]
        have hkj : ∀ k, k < lines.length → lineAt lines k = needle →
            j < k := by
          intro k hk he
          by_contra hge
          rcases Nat.lt_or_ge k j with hjk | hjk2
          · have hlt := sorted_lineAt hsort hjk hj
            rw [he] at hlt
            rw [ltC] at hlt
            rw [hlt] at hcmp
            simp at hcmp
          · have hkeq : k = j := by omega
            rw [hkeq] at he
            rw [← he, cmp_self] at hcmp
            simp at hcmp
        refine ih (endPos lines j + 1) hi hhi (by omega) ?_
        intro k hk he
        have hold := hinv k hk he
        have hklt := hkj k hk he
        have hsucc := startPos_succ hj
        have hmono := startPos_mono lines (show j + 1 ≤ k by omega)
        exact ⟨by omega, hold.2⟩
    · rw [bsuGo, if_neg hlohi]
      constructor
      · intro h
        simp at h
      · rintro ⟨k, hk, he⟩
        have hold := hinv k hk he
        have hse : startPos lines k ≤ endPos lines k := by
          rw [endPos]; omega
        exfalso
        omega

theorem lineAt_eq_get : ∀ (lines : List (List Char)) (k : Nat)
    (hk : k < lines.length), lineAt lines k = lines.get ⟨k, hk⟩ := by
  intro lines
  induction lines with
  | nil => intro k hk; simp at hk
  | cons l ls ih =>
    intro k hk
    cases k with
    | zero => rfl
    | succ k' =>
      simp only [lineAt, List.getD_cons_succ]
      exact ih k' (by simpa using hk)

/-- C6: lookup over the separator-joined sorted dictionary text decides
exact membership in the word list — every line (including the first and the
last) is found, and every absent string is rejected. -/
theorem binary_search_uneven_correct (needle : List Char)
    (lines : List (List Char)) (sep : Char)
    (hsep : ∀ l ∈ lines, ∀ x ∈ l, (x == sep) = false)
    (hsort : lines.Pairwise ltC) :
    binary_search_uneven needle (joinSep sep lines) sep = true
      ↔ needle ∈ lines := by
  have hmem := @bsuGo_mem needle lines sep hsep hsort
    ((joinSep sep lines).length + 1) 0
    (joinSep sep lines).length le_rfl (by omega)
    (fun k hk _ => ⟨Nat.zero_le _, endPos_lt_length hk⟩)
  rw [binary_search_uneven]
  refine hmem.trans ?_
  constructor
  · rintro ⟨k, hk, he⟩
    rw [← he]
    exact lineAt_mem hk
  · intro hin
    obtain ⟨⟨k, hk⟩, he⟩ := List.mem_iff_get.mp hin
    refine ⟨k, hk, ?_⟩
    rw [lineAt_eq_get lines k hk, he]

theorem binary_search_uneven_correct_witness :
    binary_search_uneven (['b']) (joinSep ('\n') dictW) '\n' = true
    ∧ binary_search_uneven (['z']) (joinSep ('\n') dictW) '\n' ≠ true :=
  ⟨(binary_search_uneven_correct (['b']) dictW '\n' (by decide)
      (by decide)).mpr (by decide),
   fun h => absurd ((binary_search_uneven_correct (['z']) dictW '\n'
      (by decide) (by decide)).mp h) (by decide)⟩

end Srgn

